import Mathlib

set_option autoImplicit false

namespace MPSSim

/-! Shallow embedding of the MPS (matrix-product-state) approximate quantum
state simulator of cirq.contrib.quimb.  The implementation file
mps_simulator.py is not part of the source tree (only its test suite is),
so the definitions below are modelled from the specification, constrained
by the behaviour the test suite pins down.  Scalars are exact rationals. -/

/-- Modelled from the spec: the decimal digit characters of a position
number, most significant digit first (Python str(k)); mps_simulator.py is
absent from the source tree. -/
def decChars (k : ℕ) : List Char :=
  if k = 0 then [ '0' ] else ((Nat.digits 10 k).map Nat.digitChar).reverse

/-- Number of decimal digits of k (Python len(str(k))). -/
def numDigits (k : ℕ) : ℕ := (decChars k).length

/-- Modelled from the spec: zero-pad a digit string on the left to width w
(Python format specifier 0w). -/
def zeroPad (w : ℕ) (cs : List Char) : List Char :=
  List.replicate (w - cs.length) '0' ++ cs

/-- Numeric value of a decimal digit character. -/
def charVal (c : Char) : ℕ := c.toNat - 48

/-- Parse a digit string back to the number it denotes (most significant
digit first); used to show that the padded names are unambiguous. -/
def parseDec (cs : List Char) : ℕ := cs.foldl (fun a c => 10 * a + charVal c) 0

/-- Modelled from the spec: the MPS simulator state (mps_simulator.py is
absent from the source tree).  Qudit positions are 0 .. dims.length - 1 and
dims lists each qudit's basis dimension.  Tensor contents are tracked for
product states (one vector of amplitudes per qudit); bond dimensions are
tracked in an association list keyed by the canonical (min, max) position
pair.  The counters mirror the resource statistics of the spec. -/
structure MPSState where
  dims : List ℕ
  tensors : List (List ℚ)
  bonds : List ((ℕ × ℕ) × ℕ)
  rsum2_cutoff : ℚ
  sum_prob_atol : ℚ
  num_svd_splits : ℕ
  num_coefs_used : ℕ
  estimated_fidelity : ℚ
deriving DecidableEq, Repr

/-- Number of qudits of the state. -/
def MPSState.n (st : MPSState) : ℕ := st.dims.length

/-- Modelled from the spec: the zero-pad width of positions in index names,
the minimum width that is uniform over all declared positions, i.e. the
digit count of the largest position (the tests pin the names i_0 for small
states and i_00 for a 12-qudit state). -/
def MPSState.padWidth (st : MPSState) : ℕ := numDigits (st.n - 1)

/-- Modelled from the spec: name of the physical index of the qudit at
position k. -/
def MPSState.i_str (st : MPSState) (k : ℕ) : String :=
  String.mk ( 'i' :: '_' :: zeroPad st.padWidth (decChars k))

/-- Modelled from the spec: canonical name of the bond index between
positions p and q; the smaller position comes first regardless of argument
order. -/
def MPSState.mu_str (st : MPSState) (p q : ℕ) : String :=
  String.mk (( 'm' :: 'u' :: '_' :: zeroPad st.padWidth (decChars (min p q))) ++
    '_' :: zeroPad st.padWidth (decChars (max p q)))

/-- Sum of squares of the singular values dropped when the first k are kept. -/
def droppedSq (svs : List ℚ) (k : ℕ) : ℚ := ((svs.drop k).map (fun s => s * s)).sum

/-- Sum of squares of the singular values kept when the first k are kept. -/
def retainedSq (svs : List ℚ) (k : ℕ) : ℚ := ((svs.take k).map (fun s => s * s)).sum

/-- Sum of squares of all singular values. -/
def totalSq (svs : List ℚ) : ℚ := (svs.map (fun s => s * s)).sum

/-- Search k = start, start+1, ... for the first rank whose dropped squared
weight is within the relative cutoff, with explicit fuel. -/
def chooseRankGo (svs : List ℚ) (cutoff : ℚ) : ℕ → ℕ → ℕ
  | k, 0 => k
  | k, fuel + 1 =>
    if droppedSq svs k ≤ cutoff * totalSq svs then k else chooseRankGo svs cutoff (k + 1) fuel

/-- Modelled from the spec (mps_simulator.py absent): the truncation rank —
the smallest prefix length of the descending singular values such that the
squared weight of the dropped values is at most cutoff times the total
squared weight. -/
def chooseRank (svs : List ℚ) (cutoff : ℚ) : ℕ := chooseRankGo svs cutoff 0 (svs.length + 1)

/-- Modelled from the spec: a circuit operation — the positions of its
target qudits, a gate matrix used by the one-qudit contraction, and, since
an exact SVD is not computable in the embedding, the descending singular
values produced by the factorization oracle for the two-qudit branch. -/
structure Operation where
  targets : List ℕ
  gate : List (List ℚ)
  svs : List ℚ
deriving DecidableEq, Repr

/-- Error taxonomy of the spec (the unresolved-parameter error concerns the
symbolic-parameter front end, outside this embedding). -/
inductive MPSErr where
  | arity
  | tolerance
deriving DecidableEq, Repr

/-- Matrix-vector product: contraction of a 1-qudit gate with a physical leg. -/
def matVec (m : List (List ℚ)) (v : List ℚ) : List ℚ :=
  m.map (fun row => ((row.zip v).map (fun p => p.1 * p.2)).sum)

/-- Canonical (min, max) key of the bond between two positions. -/
def canonPair (p q : ℕ) : ℕ × ℕ := (min p q, max p q)

/-- Current dimension of the bond between positions p and q (1 when the two
sites are unconnected). -/
def MPSState.bondDim (st : MPSState) (p q : ℕ) : ℕ :=
  ((st.bonds.find? (fun e => e.1 == canonPair p q)).map (fun e => e.2)).getD 1

/-- Modelled from the spec (mps_simulator.py absent): apply_op.  A 1-qudit
gate contracts the gate matrix against the target's physical leg in place;
a 2-qudit gate performs the truncated factorization: the bond between the
two targets is resized to the chosen rank, the truncation-event counter and
the retained-coefficient counter are updated, and the running fidelity
estimate is multiplied by retained over total squared weight (the
post-split tensor contents come from the SVD oracle and are not tracked).
Any other target count is an arity error (the test suite pins the message
"Can only handle 1 and 2 qubit operations"). -/
def MPSState.apply_op (st : MPSState) (op : Operation) : Except MPSErr MPSState :=
  match op.targets with
  | [p] => .ok { st with tensors := st.tensors.set p (matVec op.gate (st.tensors.getD p [])) }
  | [p, q] =>
    let k := chooseRank op.svs st.rsum2_cutoff
    .ok { st with
      bonds := (canonPair p q, k) :: st.bonds
      num_svd_splits := st.num_svd_splits + 1
      num_coefs_used := st.num_coefs_used + k
      estimated_fidelity := st.estimated_fidelity * (retainedSq op.svs k / totalSq op.svs) }
  | _ => .error .arity

/-- Modelled from the spec: sequential application of a circuit's
operations, failing fast on the first error. -/
def simulateOps : MPSState → List Operation → Except MPSErr MPSState
  | st, [] => .ok st
  | st, op :: rest =>
    match st.apply_op op with
    | .error e => .error e
    | .ok st1 => simulateOps st1 rest

/-- Resource statistics reported by the state (memory bytes omitted:
backing-storage size is not part of the embedding). -/
structure EstimationStats where
  estimated_fidelity : ℚ
  num_svd_splits : ℕ
  num_coefs_used : ℕ
deriving DecidableEq, Repr

/-- Modelled from the spec: estimation_stats(). -/
def MPSState.estimation_stats (st : MPSState) : EstimationStats :=
  ⟨st.estimated_fidelity, st.num_svd_splits, st.num_coefs_used⟩

/-- Default truncation cutoff of the simulator constructor (rsum2_cutoff=1e-3). -/
def defaultRsum2Cutoff : ℚ := 1 / 1000

/-- Default probability tolerance of the simulator constructor (sum_prob_atol=1e-3). -/
def defaultSumProbAtol : ℚ := 1 / 1000

/-- One-hot amplitude vector of length d with a 1 at index i. -/
def oneHot (d i : ℕ) : List ℚ := (List.range d).map (fun j => if j = i then 1 else 0)

/-- Modelled from the spec: big-endian mixed-radix digit decomposition of an
initial-state integer, one digit per qudit dimension. -/
def basisDigits : List ℕ → ℕ → List ℕ
  | [], _ => []
  | d :: ds, m => (m / ds.prod) % d :: basisDigits ds (m % ds.prod)

/-- Modelled from the spec: a fresh state set to the computational basis
state given by the digit decomposition of the initial-state integer, with
the given configuration and zeroed counters (lifecycle section of the
spec; mps_simulator.py is absent from the source tree). -/
def freshState (dims : List ℕ) (m : ℕ) (cutoff atol : ℚ) : MPSState :=
  { dims := dims
    tensors := List.zipWith oneHot dims (basisDigits dims m)
    bonds := []
    rsum2_cutoff := cutoff
    sum_prob_atol := atol
    num_svd_splits := 0
    num_coefs_used := 0
    estimated_fidelity := 1 }

/-- Inverse-CDF draw: the index of the first outcome whose cumulative
probability exceeds the random draw (falling off the end only when the
draw exceeds the total mass). -/
def pickGo : List ℚ → ℚ → ℕ → ℕ
  | [], _, i => i
  | p :: ps, r, i => if r < p then i else pickGo ps (r - p) (i + 1)

/-- Outcome index drawn from a probability list by inverse CDF. -/
def pickOutcome (probs : List ℚ) (r : ℚ) : ℕ := pickGo probs r 0

/-- Modelled from the spec: measurement of the qudit at position p (the
Sampler/Measurer).  Computes the qudit's outcome probabilities, validates
that the total probability mass sums to 1 up to sum_prob_atol (tolerance
error otherwise; the test suite pins the message "Sum of probabilities
exceeds tolerance"), draws the outcome by inverse CDF from the random draw
r, and collapses the qudit's tensor onto the drawn digit. -/
def MPSState.measureOne (st : MPSState) (p : ℕ) (r : ℚ) : Except MPSErr (MPSState × ℕ) :=
  let t := st.tensors.getD p []
  let probs := t.map (fun a => a * a)
  if |probs.sum - 1| > st.sum_prob_atol then .error .tolerance
  else
    let d := pickOutcome probs r
    .ok ({ st with tensors := st.tensors.set p (oneHot t.length d) }, d)

/-- Modelled from the spec: measure a list of qudit positions in order,
consuming one random draw per qudit from the stream rng starting at index
t, collapsing after each drawn outcome and failing fast on a tolerance
error (a failing measurement returns no result). -/
def measureFrom : MPSState → List ℕ → (ℕ → ℚ) → ℕ → Except MPSErr (MPSState × List ℕ)
  | st, [], _, _ => .ok (st, [])
  | st, p :: ps, rng, t =>
    match st.measureOne p (rng t) with
    | .error e => .error e
    | .ok (st1, d) =>
      match measureFrom st1 ps rng (t + 1) with
      | .error e => .error e
      | .ok (st2, ds) => .ok (st2, d :: ds)

/-- Modelled from the spec: sample(qudits, repetitions) — each repetition
runs the measurement pipeline on a copy of the state, collapsing only the
copy, and the original state is returned unchanged alongside the per-
repetition outcome lists; draws of different repetitions use disjoint
indices of the random stream. -/
def MPSState.sample (st : MPSState) (ps : List ℕ) (reps : ℕ) (rng : ℕ → ℚ) :
    Except MPSErr (MPSState × List (List ℕ)) :=
  match reps with
  | 0 => .ok (st, [])
  | r + 1 =>
    match measureFrom st ps rng (r * ps.length) with
    | .error e => .error e
    | .ok (_, ds) =>
      match st.sample ps r rng with
      | .error e => .error e
      | .ok (_, rest) => .ok (st, ds :: rest)

/-! Heap model of the Circuit Stepper.  Tensors live in an addressed store
so that sharing of backing storage is explicit: the working state's n
tensors live at addresses 0 .. n-1 and are mutated in place by gate
application, and each yielded step result carries a deep copy of the n
working tensors allocated at fresh addresses (the repository's
test_state_copy pins that tensors captured from different steps never
share memory). -/

/-- Read the tensor stored at heap address a. -/
def readT (h : List (List ℚ)) (a : ℕ) : List ℚ := h.getD a []

/-- Modelled from the spec: apply one moment's unary operations to the
working state, writing each target's tensor in place (working address =
qudit position). -/
def applyMoment : List (List ℚ) → List (ℕ × List (List ℚ)) → List (List ℚ)
  | h, [] => h
  | h, pm :: mo => applyMoment (h.set pm.1 (matVec pm.2 (readT h pm.1))) mo

/-- A yielded step result: the heap addresses of its copied tensors and
their contents at yield time. -/
structure StepRes where
  ptrs : List ℕ
  snap : List (List ℚ)
deriving DecidableEq, Repr

/-- Modelled from the spec and the test suite: the Circuit Stepper
(simulate_moment_steps) over moments of unary operations.  Each transition
applies the moment to the working state in place and then yields a step
result holding a deep copy of the n working tensors at fresh addresses.
Returns the final heap and the yielded step results. -/
def simSteps (n : ℕ) : List (List ℚ) → List (List (ℕ × List (List ℚ))) →
    List (List ℚ) × List StepRes
  | h, [] => (h, [])
  | h, mo :: rest =>
    let h1 := applyMoment h mo
    let snap := (List.range n).map (readT h1)
    let out := simSteps n (h1 ++ snap) rest
    (out.1, ⟨List.range' h1.length n, snap⟩ :: out.2)

theorem charVal_digitChar {d : ℕ} (hd : d < 10) : charVal (Nat.digitChar d) = d := by
  interval_cases d <;> rfl

theorem foldr_charVal (L : List ℕ) (h : ∀ d ∈ L, d < 10) :
    L.foldr (fun d a => 10 * a + charVal (Nat.digitChar d)) 0 = Nat.ofDigits 10 L := by
  induction L with
  | nil => simp [Nat.ofDigits]
  | cons d L ih =>
    have hd : d < 10 := h d (List.mem_cons_self d L)
    rw [List.foldr_cons, ih (fun x hx => h x (List.mem_cons_of_mem d hx)),
      charVal_digitChar hd, Nat.ofDigits_cons]
    ring

theorem parseDec_decChars (k : ℕ) : parseDec (decChars k) = k := by
  by_cases hk : k = 0
  · subst hk; rfl
  · unfold parseDec decChars
    rw [if_neg hk, List.foldl_reverse, List.foldr_map]
    have h10 : ∀ d ∈ Nat.digits 10 k, d < 10 :=
      fun d hd => Nat.digits_lt_base (by norm_num) hd
    have := foldr_charVal (Nat.digits 10 k) h10
    simpa [Nat.ofDigits_digits] using this

theorem parseDec_go_replicate (m : ℕ) :
    List.foldl (fun a c => 10 * a + charVal c) 0 (List.replicate m '0') = 0 := by
  induction m with
  | zero => rfl
  | succ m ih => simpa [List.replicate_succ, charVal] using ih

theorem parseDec_zeroPad (w k : ℕ) : parseDec (zeroPad w (decChars k)) = k := by
  unfold zeroPad parseDec
  rw [List.foldl_append, parseDec_go_replicate]
  exact parseDec_decChars k

theorem applyMoment_length (mo : List (ℕ × List (List ℚ))) :
    ∀ h, (applyMoment h mo).length = h.length := by
  induction mo with
  | nil => intro h; rfl
  | cons pm mo ih => intro h; rw [applyMoment, ih]; simp

theorem applyMoment_readT (mo : List (ℕ × List (List ℚ))) :
    ∀ h (a : ℕ), (∀ pm ∈ mo, pm.1 ≠ a) → readT (applyMoment h mo) a = readT h a := by
  induction mo with
  | nil => intro h a _; rfl
  | cons pm mo ih =>
    intro h a ha
    rw [applyMoment, ih _ _ (fun x hx => ha x (List.mem_cons_of_mem _ hx))]
    unfold readT
    simp [List.getD_eq_getElem?_getD,
      List.getElem?_set_ne (ha pm (List.mem_cons_self pm mo))]

theorem simSteps_readT (n : ℕ) (ms : List (List (ℕ × List (List ℚ)))) :
    ∀ h (a : ℕ), (∀ mo ∈ ms, ∀ pm ∈ mo, pm.1 < n) → n ≤ a → a < h.length →
      readT (simSteps n h ms).1 a = readT h a := by
  induction ms with
  | nil => intro h a _ _ _; rfl
  | cons mo ms ih =>
    intro h a hms hna hah
    rw [simSteps]
    have hlen1 : (applyMoment h mo).length = h.length := applyMoment_length mo h
    have hlt : a < (applyMoment h mo ++ (List.range n).map (readT (applyMoment h mo))).length := by
      simp [hlen1]; omega
    rw [ih _ _ (fun m hm => hms m (List.mem_cons_of_mem _ hm)) hna hlt]
    unfold readT
    rw [List.getD_eq_getElem?_getD, List.getElem?_append,
      if_pos (by omega : a < (applyMoment h mo).length), ← List.getD_eq_getElem?_getD]
    exact applyMoment_readT mo h a
      (fun pm hpm => Nat.ne_of_lt (Nat.lt_of_lt_of_le (hms mo (List.mem_cons_self mo ms) pm hpm) hna))

theorem simSteps_length_fst (n : ℕ) (ms : List (List (ℕ × List (List ℚ)))) :
    ∀ h, ((simSteps n h ms).1).length = h.length + n * ms.length := by
  induction ms with
  | nil => intro h; simp [simSteps]
  | cons mo ms ih =>
    intro h
    rw [simSteps, ih, List.length_append, applyMoment_length]
    simp [Nat.mul_succ]
    omega

theorem simSteps_spec (n : ℕ) (ms : List (List (ℕ × List (List ℚ)))) :
    ∀ h, n ≤ h.length → (∀ mo ∈ ms, ∀ pm ∈ mo, pm.1 < n) →
      ∀ i, i < ((simSteps n h ms).2).length →
        ((simSteps n h ms).2.getD i ⟨[], []⟩).ptrs = List.range' (h.length + n * i) n ∧
        ∀ j, j < n →
          readT (simSteps n h ms).1 (h.length + n * i + j) =
            ((simSteps n h ms).2.getD i ⟨[], []⟩).snap.getD j [] := by
  induction ms with
  | nil => intro h _ _ i hi; simp [simSteps] at hi
  | cons mo ms ih =>
    intro h hn hms i hi
    have hlen1 : (applyMoment h mo).length = h.length := applyMoment_length mo h
    have hsnap : ((List.range n).map (readT (applyMoment h mo))).length = n := by simp
    match i with
    | 0 =>
      constructor
      · rw [simSteps]
        simp only [List.getD_cons_zero]
        rw [hlen1]
        simp
      · intro j hj
        rw [simSteps]
        simp only [List.getD_cons_zero]
        have hread : readT (simSteps n
            (applyMoment h mo ++ (List.range n).map (readT (applyMoment h mo))) ms).1
            (h.length + n * 0 + j) =
            readT (applyMoment h mo ++ (List.range n).map (readT (applyMoment h mo)))
              (h.length + n * 0 + j) := by
          apply simSteps_readT n ms _ _ (fun m hm => hms m (List.mem_cons_of_mem _ hm))
          · omega
          · rw [List.length_append, hlen1, hsnap]; omega
        rw [hread]
        unfold readT
        rw [List.getD_eq_getElem?_getD, List.getElem?_append,
          if_neg (by omega : ¬ (h.length + n * 0 + j < (applyMoment h mo).length))]
        have hj2 : h.length + n * 0 + j - (applyMoment h mo).length = j := by omega
        rw [hj2, ← List.getD_eq_getElem?_getD]
    | i + 1 =>
      have hi2 : i < ((simSteps n
          (applyMoment h mo ++ (List.range n).map (readT (applyMoment h mo))) ms).2).length := by
        rw [simSteps] at hi
        simpa using hi
      have := ih (applyMoment h mo ++ (List.range n).map (readT (applyMoment h mo)))
        (by rw [List.length_append, hlen1, hsnap]; omega)
        (fun m hm => hms m (List.mem_cons_of_mem _ hm)) i hi2
      have hbase : (applyMoment h mo ++
          (List.range n).map (readT (applyMoment h mo))).length + n * i =
          h.length + n * (i + 1) := by
        rw [List.length_append, hlen1, hsnap, Nat.mul_succ]; omega
      constructor
      · rw [simSteps]
        simp only [List.getD_cons_succ]
        rw [this.1, hbase]
      · intro j hj
        rw [simSteps]
        simp only [List.getD_cons_succ]
        have h2 := this.2 j hj
        rw [hbase] at h2
        exact h2

theorem chooseRankGo_min (svs : List ℚ) (cutoff : ℚ) :
    ∀ fuel k j, k ≤ j → j < chooseRankGo svs cutoff k fuel →
      ¬ droppedSq svs j ≤ cutoff * totalSq svs := by
  intro fuel
  induction fuel with
  | zero => intro k j hkj hj; rw [chooseRankGo] at hj; omega
  | succ fuel ih =>
    intro k j hkj hj
    rw [chooseRankGo] at hj
    by_cases hP : droppedSq svs k ≤ cutoff * totalSq svs
    · rw [if_pos hP] at hj; omega
    · rw [if_neg hP] at hj
      rcases Nat.eq_or_lt_of_le hkj with heq | hlt
      · subst heq; exact hP
      · exact ih (k + 1) j hlt hj

theorem chooseRankGo_sat (svs : List ℚ) (cutoff : ℚ) :
    ∀ fuel k, droppedSq svs (chooseRankGo svs cutoff k fuel) ≤ cutoff * totalSq svs ∨
      chooseRankGo svs cutoff k fuel = k + fuel := by
  intro fuel
  induction fuel with
  | zero => intro k; right; rw [chooseRankGo]; omega
  | succ fuel ih =>
    intro k
    rw [chooseRankGo]
    by_cases hP : droppedSq svs k ≤ cutoff * totalSq svs
    · rw [if_pos hP]; left; exact hP
    · rw [if_neg hP]
      rcases ih (k + 1) with h | h
      · left; exact h
      · right; omega

theorem droppedSq_length (svs : List ℚ) : droppedSq svs svs.length = 0 := by
  unfold droppedSq
  simp

theorem totalSq_nonneg (svs : List ℚ) : 0 ≤ totalSq svs := by
  unfold totalSq
  apply List.sum_nonneg
  intro x hx
  rcases List.mem_map.mp hx with ⟨s, _, rfl⟩
  exact mul_self_nonneg s

theorem retainedSq_add_droppedSq (svs : List ℚ) (k : ℕ) :
    retainedSq svs k + droppedSq svs k = totalSq svs := by
  unfold retainedSq droppedSq totalSq
  rw [← List.sum_append, ← List.map_append, List.take_append_drop]

theorem chooseRank_spec (svs : List ℚ) (cutoff : ℚ) (hc : 0 ≤ cutoff) :
    droppedSq svs (chooseRank svs cutoff) ≤ cutoff * totalSq svs ∧
      (∀ j, j < chooseRank svs cutoff → ¬ droppedSq svs j ≤ cutoff * totalSq svs) ∧
      chooseRank svs cutoff ≤ svs.length := by
  have hPlen : droppedSq svs svs.length ≤ cutoff * totalSq svs := by
    rw [droppedSq_length]
    exact mul_nonneg hc (totalSq_nonneg svs)
  have hmin : ∀ j, j < chooseRank svs cutoff → ¬ droppedSq svs j ≤ cutoff * totalSq svs :=
    fun j hj => chooseRankGo_min svs cutoff (svs.length + 1) 0 j (Nat.zero_le j) hj
  have hle : chooseRank svs cutoff ≤ svs.length := by
    by_contra hgt
    exact hmin svs.length (by omega) hPlen
  refine ⟨?_, hmin, hle⟩
  rcases chooseRankGo_sat svs cutoff (svs.length + 1) 0 with h | h
  · exact h
  · exfalso
    unfold chooseRank at hle
    omega

theorem oneHot_length (d i : ℕ) : (oneHot d i).length = d := by
  unfold oneHot
  simp

theorem oneHot_map_sq (d i : ℕ) : (oneHot d i).map (fun a => a * a) = oneHot d i := by
  unfold oneHot
  rw [List.map_map]
  congr 1
  funext j
  by_cases hj : j = i <;> simp [hj]

theorem oneHot_sum (d i : ℕ) : (oneHot d i).sum = if i < d then (1 : ℚ) else 0 := by
  induction d with
  | zero => simp [oneHot]
  | succ d ih =>
    unfold oneHot at ih ⊢
    rw [List.range_succ, List.map_append, List.sum_append, ih]
    simp only [List.map_cons, List.map_nil, List.sum_cons, List.sum_nil]
    by_cases hid : i < d
    · have hdi : ¬ d = i := by omega
      have : i < d + 1 := by omega
      simp [hid, hdi, this]
    · by_cases hide : d = i
      · subst hide
        simp [hid]
      · have : ¬ i < d + 1 := by omega
        simp [hid, hide, this]

theorem oneHot_succ_zero (d : ℕ) :
    oneHot (d + 1) 0 = 1 :: List.replicate d (0 : ℚ) := by
  unfold oneHot
  rw [List.range_succ_eq_map, List.map_cons, List.map_map]
  have hc : ((fun j => if j = 0 then (1 : ℚ) else 0) ∘ Nat.succ) = fun _ => (0 : ℚ) := by
    funext j
    simp
  rw [hc, List.map_const']
  simp

theorem oneHot_succ_succ (d i : ℕ) : oneHot (d + 1) (i + 1) = 0 :: oneHot d i := by
  unfold oneHot
  rw [List.range_succ_eq_map, List.map_cons, List.map_map]
  congr 1
  apply List.map_congr_left
  intro j _
  simp [Function.comp, Nat.succ_inj]

theorem pickGo_oneHot (r : ℚ) (h0 : 0 ≤ r) (h1 : r < 1) :
    ∀ d i j, i < d → pickGo (oneHot d i) r j = j + i := by
  intro d
  induction d with
  | zero => intro i j hi; omega
  | succ d ih =>
    intro i j hi
    match i with
    | 0 =>
      rw [oneHot_succ_zero, pickGo, if_pos h1]
      omega
    | i + 1 =>
      rw [oneHot_succ_succ, pickGo, if_neg (not_lt.mpr h0), sub_zero,
        ih i (j + 1) (by omega)]
      omega

theorem set_getD_self {α : Type _} (l : List α) (p : ℕ) (d : α) :
    l.set p (l.getD p d) = l := by
  induction l generalizing p with
  | nil => rfl
  | cons x xs ih =>
    match p with
    | 0 => rfl
    | p + 1 =>
      show x :: xs.set p (xs.getD p d) = x :: xs
      rw [ih p]

theorem basisDigits_lt (dims : List ℕ) :
    ∀ m p, p < dims.length → 0 < dims.getD p 0 →
      (basisDigits dims m).getD p 0 < dims.getD p 0 := by
  induction dims with
  | nil => intro m p hp hd; simp at hp
  | cons d ds ih =>
    intro m p hp hd
    match p with
    | 0 => exact Nat.mod_lt _ hd
    | p + 1 => exact ih _ p (by simpa using hp) hd

theorem basisDigits_length (dims : List ℕ) : ∀ m, (basisDigits dims m).length = dims.length := by
  induction dims with
  | nil => intro m; rfl
  | cons d ds ih =>
    intro m
    show (basisDigits (d :: ds) m).length = ds.length + 1
    rw [basisDigits]
    simp [ih]

theorem freshState_tensors_length (dims : List ℕ) (m : ℕ) (c a : ℚ) :
    (freshState dims m c a).tensors.length = dims.length := by
  unfold freshState
  simp [basisDigits_length]

theorem freshState_tensor (dims : List ℕ) :
    ∀ m p, p < dims.length → ∀ c a,
      (freshState dims m c a).tensors.getD p [] =
        oneHot (dims.getD p 0) ((basisDigits dims m).getD p 0) := by
  induction dims with
  | nil => intro m p hp; simp at hp
  | cons d ds ih =>
    intro m p hp c a
    show (List.zipWith oneHot (d :: ds) (basisDigits (d :: ds) m)).getD p [] = _
    rw [basisDigits, List.zipWith_cons_cons]
    match p with
    | 0 => rfl
    | p + 1 =>
      have := ih (m % ds.prod) p (by simpa using hp) c a
      exact this

theorem measureOne_oneHot (st : MPSState) (p : ℕ) (r : ℚ) (d i : ℕ)
    (ht : st.tensors.getD p [] = oneHot d i) (hi : i < d)
    (hatol : 0 ≤ st.sum_prob_atol) (hr0 : 0 ≤ r) (hr1 : r < 1) :
    st.measureOne p r = .ok (st, i) := by
  unfold MPSState.measureOne
  dsimp only
  rw [ht, oneHot_map_sq, oneHot_sum, if_pos hi]
  rw [if_neg (by simp [hatol, not_lt])]
  have hpick : pickOutcome (oneHot d i) r = i := by
    unfold pickOutcome
    rw [pickGo_oneHot r hr0 hr1 d i 0 hi]
    omega
  rw [hpick, oneHot_length, ← ht, set_getD_self]

theorem measureFrom_fresh (dims : List ℕ) (m : ℕ) (c a : ℚ) (rng : ℕ → ℚ)
    (hd : ∀ x ∈ dims, 0 < x) (ha : 0 ≤ a)
    (hrng : ∀ k, 0 ≤ rng k ∧ rng k < 1) :
    ∀ ps t, (∀ p ∈ ps, p < dims.length) →
      measureFrom (freshState dims m c a) ps rng t =
        .ok (freshState dims m c a, ps.map (fun p => (basisDigits dims m).getD p 0)) := by
  intro ps
  induction ps with
  | nil => intro t _; rfl
  | cons p ps ih =>
    intro t hps
    have hp : p < dims.length := hps p (List.mem_cons_self p ps)
    have hdim : 0 < dims.getD p 0 := by
      rw [List.getD_eq_getElem dims 0 hp]
      exact hd _ (List.getElem_mem hp)
    rw [measureFrom,
      measureOne_oneHot (freshState dims m c a) p (rng t) (dims.getD p 0)
        ((basisDigits dims m).getD p 0)
        (freshState_tensor dims m p hp c a)
        (basisDigits_lt dims m p hp hdim)
        ha (hrng t).1 (hrng t).2]
    dsimp only
    rw [ih (t + 1) (fun q hq => hps q (List.mem_cons_of_mem p hq))]
    rfl

theorem apply_op_arity (st : MPSState) (op : Operation)
    (h1 : op.targets.length ≠ 1) (h2 : op.targets.length ≠ 2) :
    st.apply_op op = .error .arity := by
  unfold MPSState.apply_op
  generalize hT : op.targets = ts at h1 h2 ⊢
  rcases ts with _ | ⟨p, _ | ⟨q, _ | ⟨x, r⟩⟩⟩
  · rfl
  · exact absurd rfl h1
  · exact absurd rfl h2
  · rfl

theorem apply_op_ok_or_arity (st : MPSState) (op : Operation) :
    st.apply_op op = .error .arity ∨ ∃ st1, st.apply_op op = .ok st1 := by
  unfold MPSState.apply_op
  generalize op.targets = ts
  rcases ts with _ | ⟨p, _ | ⟨q, _ | ⟨x, r⟩⟩⟩
  · left; rfl
  · right; exact ⟨_, rfl⟩
  · right; exact ⟨_, rfl⟩
  · left; rfl

theorem simulateOps_arity (op : Operation)
    (h1 : op.targets.length ≠ 1) (h2 : op.targets.length ≠ 2) :
    ∀ ops st, op ∈ ops → simulateOps st ops = .error .arity := by
  intro ops
  induction ops with
  | nil => intro st h; simp at h
  | cons o rest ih =>
    intro st hmem
    rw [simulateOps]
    rcases List.mem_cons.mp hmem with heq | hmem2
    · subst heq
      rw [apply_op_arity st op h1 h2]
    · rcases apply_op_ok_or_arity st o with hE | ⟨st1, hO⟩
      · rw [hE]
      · rw [hO]
        exact ih st1 hmem2

/-- C2: an operation acting on a number of qudits other than 1 or 2 makes
apply_op fail with an arity error, and the simulation of any circuit
containing such an operation fails with the arity error as well,
regardless of the surrounding circuit content. -/
theorem apply_op_and_simulate_arity_error (st : MPSState) (op : Operation)
    (h1 : op.targets.length ≠ 1) (h2 : op.targets.length ≠ 2) :
    st.apply_op op = .error .arity ∧
      ∀ ops, op ∈ ops → simulateOps st ops = .error .arity :=
  ⟨apply_op_arity st op h1 h2, fun ops hmem => simulateOps_arity op h1 h2 ops st hmem⟩

/-- Witness for C2: a 3-qudit operation (the CCX of test_three_qubits)
inside a circuit that also has valid 1-qudit operations fails with the
arity error. -/
theorem apply_op_and_simulate_arity_error_witness :
    (freshState [2, 2, 2] 0 defaultRsum2Cutoff defaultSumProbAtol).apply_op
        ⟨[0, 1, 2], [], []⟩ = .error .arity ∧
      simulateOps (freshState [2, 2, 2] 0 defaultRsum2Cutoff defaultSumProbAtol)
        [⟨[0], [[0, 1], [1, 0]], []⟩, ⟨[0, 1, 2], [], []⟩] = .error .arity :=
  ⟨(apply_op_and_simulate_arity_error _ ⟨[0, 1, 2], [], []⟩ (by decide) (by decide)).1,
    (apply_op_and_simulate_arity_error _ ⟨[0, 1, 2], [], []⟩ (by decide) (by decide)).2
      _ (by simp)⟩

theorem sum_map_sq_scale (c : ℚ) (l : List ℚ) :
    (l.map (fun s => (c * s) * (c * s))).sum = c ^ 2 * (l.map (fun s => s * s)).sum := by
  induction l with
  | nil => simp
  | cons x l ih =>
    simp only [List.map_cons, List.sum_cons, ih]
    ring

theorem droppedSq_scale (svs : List ℚ) (c : ℚ) (k : ℕ) :
    droppedSq (svs.map (fun s => c * s)) k = c ^ 2 * droppedSq svs k := by
  unfold droppedSq
  rw [← List.map_drop, List.map_map]
  exact sum_map_sq_scale c (svs.drop k)

theorem totalSq_scale (svs : List ℚ) (c : ℚ) :
    totalSq (svs.map (fun s => c * s)) = c ^ 2 * totalSq svs := by
  unfold totalSq
  rw [List.map_map]
  exact sum_map_sq_scale c svs

theorem chooseRankGo_congr (svs1 svs2 : List ℚ) (c1 c2 : ℚ)
    (h : ∀ j, droppedSq svs1 j ≤ c1 * totalSq svs1 ↔ droppedSq svs2 j ≤ c2 * totalSq svs2) :
    ∀ fuel k, chooseRankGo svs1 c1 k fuel = chooseRankGo svs2 c2 k fuel := by
  intro fuel
  induction fuel with
  | zero => intro k; rfl
  | succ fuel ih =>
    intro k
    rw [chooseRankGo, chooseRankGo]
    by_cases hP : droppedSq svs1 k ≤ c1 * totalSq svs1
    · rw [if_pos hP, if_pos ((h k).mp hP)]
    · rw [if_neg hP, if_neg (fun hq => hP ((h k).mpr hq))]
      exact ih (k + 1)

theorem chooseRank_scale (svs : List ℚ) (cutoff c : ℚ) (hc : c ≠ 0) :
    chooseRank (svs.map (fun s => c * s)) cutoff = chooseRank svs cutoff := by
  have hc2 : 0 < c ^ 2 := by positivity
  have hiff : ∀ j, droppedSq (svs.map (fun s => c * s)) j ≤
      cutoff * totalSq (svs.map (fun s => c * s)) ↔
      droppedSq svs j ≤ cutoff * totalSq svs := by
    intro j
    rw [droppedSq_scale, totalSq_scale,
      show cutoff * (c ^ 2 * totalSq svs) = c ^ 2 * (cutoff * totalSq svs) by ring]
    exact mul_le_mul_left hc2
  unfold chooseRank
  rw [List.length_map]
  exact chooseRankGo_congr _ _ _ _ hiff (svs.length + 1) 0

/-- C3: after a 2-qudit gate the retained rank is the smallest prefix of
the descending singular values whose dropped squared weight is at most
truncation_cutoff times the total squared weight — a relative-weight
criterion, invariant under rescaling all singular values, hence neither a
fixed-rank nor an absolute-magnitude criterion — and the shared bond leg's
dimension is updated to that retained rank. -/
theorem truncation_rank_smallest_and_bond_updated (svs : List ℚ) (st : MPSState)
    (p q : ℕ) (g : List (List ℚ)) (hc : 0 ≤ st.rsum2_cutoff) :
    (droppedSq svs (chooseRank svs st.rsum2_cutoff) ≤ st.rsum2_cutoff * totalSq svs ∧
      (∀ j, j < chooseRank svs st.rsum2_cutoff →
        ¬ droppedSq svs j ≤ st.rsum2_cutoff * totalSq svs) ∧
      chooseRank svs st.rsum2_cutoff ≤ svs.length) ∧
    (∀ c : ℚ, c ≠ 0 →
      chooseRank (svs.map (fun s => c * s)) st.rsum2_cutoff =
        chooseRank svs st.rsum2_cutoff) ∧
    ∃ st1, st.apply_op ⟨[p, q], g, svs⟩ = .ok st1 ∧
      st1.bondDim p q = chooseRank svs st.rsum2_cutoff := by
  refine ⟨chooseRank_spec svs st.rsum2_cutoff hc,
    fun c hc0 => chooseRank_scale svs st.rsum2_cutoff c hc0, ?_⟩
  refine ⟨_, rfl, ?_⟩
  unfold MPSState.bondDim
  dsimp only
  rw [List.find?_cons_of_pos _ (by simp)]
  rfl

/-- Witness for C3: applying a 2-qudit gate with singular values [1, 0] and
cutoff 0 produces a state whose bond dimension between the targets is the
chosen rank. -/
theorem truncation_rank_witness :
    ∃ st1,
      (freshState [2, 2] 0 0 defaultSumProbAtol).apply_op ⟨[0, 1], [], [1, 0]⟩ = .ok st1 ∧
        st1.bondDim 0 1 =
          chooseRank [1, 0] (freshState [2, 2] 0 0 defaultSumProbAtol).rsum2_cutoff :=
  (truncation_rank_smallest_and_bond_updated [1, 0]
    (freshState [2, 2] 0 0 defaultSumProbAtol) 0 1 [] (by norm_num [freshState])).2.2

theorem simulateOps_no_drop (ops : List Operation) :
    ∀ st : MPSState,
      (∀ op ∈ ops, op.targets.length = 1 ∨ op.targets.length = 2) →
      (∀ op ∈ ops, op.targets.length = 2 →
        droppedSq op.svs (chooseRank op.svs st.rsum2_cutoff) = 0 ∧ totalSq op.svs ≠ 0) →
      ∃ st1, simulateOps st ops = .ok st1 ∧
        st1.estimated_fidelity = st.estimated_fidelity ∧
        st1.num_svd_splits =
          st.num_svd_splits + (ops.filter (fun op => op.targets.length == 2)).length ∧
        st1.rsum2_cutoff = st.rsum2_cutoff := by
  induction ops with
  | nil =>
    intro st _ _
    exact ⟨st, rfl, rfl, by simp, rfl⟩
  | cons op rest ih =>
    intro st harity hdrop
    rcases harity op (List.mem_cons_self op rest) with h1 | h2
    · rcases List.length_eq_one.mp h1 with ⟨p, hp⟩
      have happ : st.apply_op op =
          .ok { st with tensors := st.tensors.set p (matVec op.gate (st.tensors.getD p [])) } := by
        unfold MPSState.apply_op
        rw [hp]
      rw [simulateOps, happ]
      obtain ⟨st1, hsim, hfid, hsplit, hcut⟩ :=
        ih { st with tensors := st.tensors.set p (matVec op.gate (st.tensors.getD p [])) }
          (fun o ho => harity o (List.mem_cons_of_mem _ ho))
          (fun o ho hl => hdrop o (List.mem_cons_of_mem _ ho) hl)
      have hpred : (op.targets.length == 2) = false := by
        rw [h1]
        rfl
      refine ⟨st1, hsim, hfid, ?_, hcut⟩
      rw [hsplit, List.filter_cons, if_neg (by rw [hpred]; exact Bool.false_ne_true)]
    · rcases List.length_eq_two.mp h2 with ⟨p, q, hpq⟩
      have hdr := hdrop op (List.mem_cons_self op rest) h2
      have hret : retainedSq op.svs (chooseRank op.svs st.rsum2_cutoff) /
          totalSq op.svs = 1 := by
        have hsum := retainedSq_add_droppedSq op.svs (chooseRank op.svs st.rsum2_cutoff)
        rw [hdr.1, add_zero] at hsum
        rw [hsum]
        exact div_self hdr.2
      have happ : st.apply_op op =
          .ok { st with
            bonds := (canonPair p q, chooseRank op.svs st.rsum2_cutoff) :: st.bonds
            num_svd_splits := st.num_svd_splits + 1
            num_coefs_used := st.num_coefs_used + chooseRank op.svs st.rsum2_cutoff
            estimated_fidelity := st.estimated_fidelity *
              (retainedSq op.svs (chooseRank op.svs st.rsum2_cutoff) / totalSq op.svs) } := by
        unfold MPSState.apply_op
        rw [hpq]
      rw [simulateOps, happ]
      obtain ⟨st1, hsim, hfid, hsplit, hcut⟩ :=
        ih { st with
            bonds := (canonPair p q, chooseRank op.svs st.rsum2_cutoff) :: st.bonds
            num_svd_splits := st.num_svd_splits + 1
            num_coefs_used := st.num_coefs_used + chooseRank op.svs st.rsum2_cutoff
            estimated_fidelity := st.estimated_fidelity *
              (retainedSq op.svs (chooseRank op.svs st.rsum2_cutoff) / totalSq op.svs) }
          (fun o ho => harity o (List.mem_cons_of_mem _ ho))
          (fun o ho hl => hdrop o (List.mem_cons_of_mem _ ho) hl)
      have hpred : (op.targets.length == 2) = true := by
        rw [h2]
        rfl
      refine ⟨st1, hsim, ?_, ?_, hcut⟩
      · rw [hfid]
        dsimp only
        rw [hret, mul_one]
      · rw [hsplit, List.filter_cons, if_pos hpred]
        dsimp only
        rw [List.length_cons]
        omega

/-- C4: starting from a fresh state, when every two-qudit factorization
drops no squared weight (in particular when there are no two-qudit gates
at all, or the cutoff is large enough), estimation_stats() reports
estimated_fidelity exactly 1, and num_svd_splits equals exactly the number
of two-qudit gate applications that performed a factorization. -/
theorem estimation_stats_fidelity_one_and_split_count (dims : List ℕ) (m0 : ℕ)
    (cutoff atol : ℚ) (ops : List Operation)
    (harity : ∀ op ∈ ops, op.targets.length = 1 ∨ op.targets.length = 2)
    (hdrop : ∀ op ∈ ops, op.targets.length = 2 →
      droppedSq op.svs (chooseRank op.svs cutoff) = 0 ∧ totalSq op.svs ≠ 0) :
    ∃ st1, simulateOps (freshState dims m0 cutoff atol) ops = .ok st1 ∧
      st1.estimation_stats.estimated_fidelity = 1 ∧
      st1.estimation_stats.num_svd_splits =
        (ops.filter (fun op => op.targets.length == 2)).length := by
  obtain ⟨st1, hsim, hfid, hsplit, _⟩ :=
    simulateOps_no_drop ops (freshState dims m0 cutoff atol) harity hdrop
  refine ⟨st1, hsim, ?_, ?_⟩
  · show st1.estimated_fidelity = 1
    rw [hfid]
    rfl
  · show st1.num_svd_splits = _
    rw [hsplit]
    show 0 + _ = _
    omega

/-- Witness for C4: a single entangling gate whose factorization keeps all
the weight yields fidelity 1 and one svd split. -/
theorem estimation_stats_witness :
    ∃ st1,
      simulateOps (freshState [2, 2] 0 defaultRsum2Cutoff defaultSumProbAtol)
          [⟨[0, 1], [], [1]⟩] = .ok st1 ∧
        st1.estimation_stats.estimated_fidelity = 1 ∧
        st1.estimation_stats.num_svd_splits =
          (([⟨[0, 1], [], [1]⟩] : List Operation).filter
            (fun op => op.targets.length == 2)).length :=
  estimation_stats_fidelity_one_and_split_count [2, 2] 0 defaultRsum2Cutoff
    defaultSumProbAtol [⟨[0, 1], [], [1]⟩]
    (by intro op hop; simp at hop; rw [hop]; right; rfl)
    (by
      intro op hop hl
      simp at hop
      rw [hop]
      have hcr : chooseRank [1] defaultRsum2Cutoff = 1 := by
        norm_num [chooseRank, chooseRankGo, droppedSq, totalSq, defaultRsum2Cutoff]
      constructor
      · show droppedSq [1] (chooseRank [1] defaultRsum2Cutoff) = 0
        rw [hcr]
        norm_num [droppedSq]
      · show totalSq [1] ≠ 0
        norm_num [totalSq])

/-- C8: sample never mutates the stored tensors — the state returned by a
successful call is the very state it was called on, every repetition
drawing on a copy — and it draws exactly one outcome list per repetition. -/
theorem sample_preserves_state_and_counts (st : MPSState) (ps : List ℕ) (rng : ℕ → ℚ) :
    ∀ reps st1 res, st.sample ps reps rng = .ok (st1, res) →
      st1 = st ∧ res.length = reps := by
  intro reps
  induction reps with
  | zero =>
    intro st1 res h
    rw [MPSState.sample] at h
    simp only [Except.ok.injEq, Prod.mk.injEq] at h
    refine ⟨h.1.symm, ?_⟩
    rw [← h.2]
    rfl
  | succ r ih =>
    intro st1 res h
    rw [MPSState.sample] at h
    cases hm : measureFrom st ps rng (r * ps.length) with
    | error e => rw [hm] at h; cases h
    | ok pr =>
      obtain ⟨stx, ds⟩ := pr
      rw [hm] at h
      cases hs : st.sample ps r rng with
      | error e => rw [hs] at h; cases h
      | ok pr2 =>
        obtain ⟨sty, rest0⟩ := pr2
        rw [hs] at h
        simp only [Except.ok.injEq, Prod.mk.injEq] at h
        obtain ⟨hst, hres⟩ := h
        have hih := ih sty rest0 hs
        refine ⟨hst.symm, ?_⟩
        rw [← hres, List.length_cons, hih.2]

/-- Witness for C8: a one-repetition sample of a fresh one-qubit state runs
the measurement pipeline on a copy, succeeds with the drawn outcome list
[[0]], and leaves the state unchanged. -/
theorem sample_preserves_state_witness :
    (freshState [2] 0 defaultRsum2Cutoff defaultSumProbAtol).sample [0] 1 (fun _ => 0) =
        .ok (freshState [2] 0 defaultRsum2Cutoff defaultSumProbAtol, [ [0] ]) ∧
      freshState [2] 0 defaultRsum2Cutoff defaultSumProbAtol =
        freshState [2] 0 defaultRsum2Cutoff defaultSumProbAtol ∧
      ([ [0] ] : List (List ℕ)).length = 1 := by
  have hm : measureFrom (freshState [2] 0 defaultRsum2Cutoff defaultSumProbAtol) [0]
      (fun _ => 0) (0 * List.length [0]) =
      .ok (freshState [2] 0 defaultRsum2Cutoff defaultSumProbAtol, [0]) :=
    measureFrom_fresh [2] 0 defaultRsum2Cutoff defaultSumProbAtol (fun _ => 0)
      (by intro x hx; simp at hx; omega)
      (by norm_num [defaultSumProbAtol])
      (by intro k; constructor <;> norm_num)
      [0] (0 * List.length [0])
      (by intro p hp; simp at hp; simp [hp])
  have heval : (freshState [2] 0 defaultRsum2Cutoff defaultSumProbAtol).sample [0] 1
      (fun _ => 0) =
      .ok (freshState [2] 0 defaultRsum2Cutoff defaultSumProbAtol, [ [0] ]) := by
    rw [MPSState.sample, hm]
    rfl
  exact ⟨heval,
    sample_preserves_state_and_counts
      (freshState [2] 0 defaultRsum2Cutoff defaultSumProbAtol) [0] (fun _ => 0) 1
      (freshState [2] 0 defaultRsum2Cutoff defaultSumProbAtol) [ [0] ] heval⟩

/-- C9: a state carrying a negative probability tolerance fails every
(nonempty) measurement with the tolerance error — the post-measurement
check that probability mass sums to 1 within tolerance can never pass —
and a failing measurement returns no result. -/
theorem negative_atol_tolerance_error (st : MPSState) (ps : List ℕ) (rng : ℕ → ℚ)
    (t : ℕ) (hatol : st.sum_prob_atol < 0) (hps : ps ≠ []) :
    measureFrom st ps rng t = .error .tolerance := by
  rcases ps with _ | ⟨p, rest⟩
  · exact absurd rfl hps
  · rw [measureFrom]
    have hone : st.measureOne p (rng t) = .error .tolerance := by
      unfold MPSState.measureOne
      dsimp only
      rw [if_pos (lt_of_lt_of_le hatol (abs_nonneg _))]
    rw [hone]

/-- Witness for C9: a fresh state built with probability tolerance -1/2
fails a single-qudit measurement with the tolerance error. -/
theorem negative_atol_witness :
    measureFrom (freshState [2] 0 defaultRsum2Cutoff (-(1 / 2))) [0] (fun _ => 0) 0 =
      .error .tolerance :=
  negative_atol_tolerance_error (freshState [2] 0 defaultRsum2Cutoff (-(1 / 2)))
    [0] (fun _ => 0) 0 (by norm_num [freshState]) (by simp)

/-- C10: a freshly constructed computational-basis state measured with the
default probability tolerance and no intervening gates deterministically
returns the basis state's digit at every measured qudit — independent of
the random stream and starting draw index, with no tolerance error — for
qudits of any basis dimension, and the state stays in that basis state. -/
theorem fresh_basis_measurement_deterministic (dims : List ℕ) (m : ℕ)
    (ps : List ℕ) (rng : ℕ → ℚ) (t : ℕ)
    (hd : ∀ x ∈ dims, 0 < x) (hp : ∀ p ∈ ps, p < dims.length)
    (hrng : ∀ k, 0 ≤ rng k ∧ rng k < 1) :
    measureFrom (freshState dims m defaultRsum2Cutoff defaultSumProbAtol) ps rng t =
      .ok (freshState dims m defaultRsum2Cutoff defaultSumProbAtol,
        ps.map (fun p => (basisDigits dims m).getD p 0)) :=
  measureFrom_fresh dims m defaultRsum2Cutoff defaultSumProbAtol rng hd
    (by norm_num [defaultSumProbAtol]) hrng ps t hp

/-- Witness for C10: measuring a fresh qutrit in basis state 0 (as in
test_measurement_str) returns the digit 0, whatever the random draw. -/
theorem fresh_basis_measurement_witness :
    measureFrom (freshState [3] 0 defaultRsum2Cutoff defaultSumProbAtol) [0]
        (fun _ => 1 / 2) 0 =
      .ok (freshState [3] 0 defaultRsum2Cutoff defaultSumProbAtol,
        ([0] : List ℕ).map (fun p => (basisDigits [3] 0).getD p 0)) :=
  fresh_basis_measurement_deterministic [3] 0 [0] (fun _ => 1 / 2) 0
    (by intro x hx; simp at hx; omega)
    (by intro p hp2; simp at hp2; simp [hp2])
    (by intro k; constructor <;> norm_num)

theorem numDigits_lt_ten {m : ℕ} (hm : m < 10) : numDigits m = 1 := by
  unfold numDigits decChars
  by_cases h0 : m = 0
  · rw [if_pos h0]
    rfl
  · rw [if_neg h0, Nat.digits_of_lt 10 m h0 hm]
    rfl

theorem numDigits_two {m : ℕ} (h1 : 10 ≤ m) (h2 : m < 100) : numDigits m = 2 := by
  unfold numDigits decChars
  rw [if_neg (by omega)]
  simp only [List.length_reverse, List.length_map]
  rw [Nat.digits_len 10 m (by norm_num) (by omega)]
  have hlog : Nat.log 10 m = 1 :=
    Nat.log_eq_of_pow_le_of_lt_pow (by simpa using h1) (by simpa using h2)
  omega

/-- C6 (amended): the Index Namer pads positions to the digit count of the
largest declared position (qudit count minus one), with no two-digit
minimum: a state with at most 10 qudits uses single-digit names such as
i_0, and a state with 11 to 100 qudits uses two-digit names such as i_00. -/
theorem i_str_padding_width (st : MPSState) (h1 : 1 ≤ st.n) :
    st.padWidth = numDigits (st.n - 1) ∧
      (st.n ≤ 10 → st.i_str 0 = "i_0") ∧
      (10 < st.n → st.n ≤ 100 → st.i_str 0 = "i_00") := by
  refine ⟨rfl, ?_, ?_⟩
  · intro h10
    unfold MPSState.i_str MPSState.padWidth
    rw [numDigits_lt_ten (by omega : st.n - 1 < 10)]
    decide
  · intro h10 h100
    unfold MPSState.i_str MPSState.padWidth
    rw [numDigits_two (by omega) (by omega)]
    decide

/-- Counterexample for C6: a one-qudit state (as rendered by
test_trial_result_str) names its physical index i_0, not the claimed
minimum-two-digit i_00. -/
theorem i_str_not_two_digit_minimum :
    (freshState [2] 0 defaultRsum2Cutoff defaultSumProbAtol).i_str 0 = "i_0" ∧
      (freshState [2] 0 defaultRsum2Cutoff defaultSumProbAtol).i_str 0 ≠ "i_00" := by
  constructor <;> decide

/-- Witness for C6 (amended): the 12-qudit state of test_tensor_index_names
pads to two digits, so i_str 0 is i_00. -/
theorem i_str_padding_width_witness :
    (freshState [2, 2, 2, 2, 2, 2, 2, 2, 2, 2, 2, 2] 0
      defaultRsum2Cutoff defaultSumProbAtol).i_str 0 = "i_00" :=
  (i_str_padding_width
    (freshState [2, 2, 2, 2, 2, 2, 2, 2, 2, 2, 2, 2] 0 defaultRsum2Cutoff defaultSumProbAtol)
    (by decide)).2.2 (by decide) (by decide)

/-- C7: mu_str is symmetric in its two positions — the canonical name puts
the smaller position first — and i_str is injective over the qudit
positions of one state. -/
theorem mu_str_symm_and_i_str_injective (st : MPSState) :
    (∀ a b, a ≠ b → st.mu_str a b = st.mu_str b a) ∧
      (∀ i j, i < st.n → j < st.n → st.i_str i = st.i_str j → i = j) := by
  constructor
  · intro a b _
    unfold MPSState.mu_str
    rw [min_comm, max_comm]
  · intro i j _ _ hij
    unfold MPSState.i_str at hij
    have hdata : ('i' :: '_' :: zeroPad st.padWidth (decChars i)) =
        ('i' :: '_' :: zeroPad st.padWidth (decChars j)) := congrArg String.data hij
    have hz : zeroPad st.padWidth (decChars i) = zeroPad st.padWidth (decChars j) := by
      simpa using hdata
    calc i = parseDec (zeroPad st.padWidth (decChars i)) := (parseDec_zeroPad _ i).symm
      _ = parseDec (zeroPad st.padWidth (decChars j)) := by rw [hz]
      _ = j := parseDec_zeroPad _ j

/-- Witness for C7: on the 12-qudit state, mu_str 0 3 equals mu_str 3 0
(both are mu_00_03), and i_str applied at equal positions recovers them. -/
theorem mu_str_symm_witness :
    (freshState [2, 2, 2, 2, 2, 2, 2, 2, 2, 2, 2, 2] 0
        defaultRsum2Cutoff defaultSumProbAtol).mu_str 0 3 =
      (freshState [2, 2, 2, 2, 2, 2, 2, 2, 2, 2, 2, 2] 0
        defaultRsum2Cutoff defaultSumProbAtol).mu_str 3 0 ∧
      (5 : ℕ) = 5 :=
  ⟨(mu_str_symm_and_i_str_injective
      (freshState [2, 2, 2, 2, 2, 2, 2, 2, 2, 2, 2, 2] 0
        defaultRsum2Cutoff defaultSumProbAtol)).1 0 3 (by decide),
    (mu_str_symm_and_i_str_injective
      (freshState [2, 2, 2, 2, 2, 2, 2, 2, 2, 2, 2, 2] 0
        defaultRsum2Cutoff defaultSumProbAtol)).2 5 5 (by decide) (by decide) rfl⟩

theorem simSteps_length_snd (n : ℕ) (ms : List (List (ℕ × List (List ℚ)))) :
    ∀ h, ((simSteps n h ms).2).length = ms.length := by
  induction ms with
  | nil => intro h; rfl
  | cons mo ms ih =>
    intro h
    rw [simSteps]
    simp [ih]

theorem range'_getD (s n k : ℕ) (hk : k < n) : (List.range' s n).getD k 0 = s + k := by
  rw [List.getD_eq_getElem?_getD, List.getElem?_range' _ _ hk]
  simp

/-- C5 (amended): each step result yielded by the Circuit Stepper holds an
independent deep copy of the state: copies made at distinct steps never
share backing storage, no copy aliases the working state's storage, and
after advancing arbitrarily far the heap contents at an earlier step's
addresses still equal that step's yield-time snapshot — so a state taken
from an earlier step keeps reflecting that step, with no explicit copy
needed from the caller. -/
theorem step_results_independent_and_durable (n : ℕ) (h : List (List ℚ))
    (ms : List (List (ℕ × List (List ℚ)))) (hlen : h.length = n)
    (hms : ∀ mo ∈ ms, ∀ pm ∈ mo, pm.1 < n) :
    (∀ i j, i < j → j < ((simSteps n h ms).2).length →
      ∀ x, x ∈ ((simSteps n h ms).2.getD i ⟨[], []⟩).ptrs →
        x ∉ ((simSteps n h ms).2.getD j ⟨[], []⟩).ptrs) ∧
    (∀ i, i < ((simSteps n h ms).2).length →
      ∀ x, x ∈ ((simSteps n h ms).2.getD i ⟨[], []⟩).ptrs → x ∉ List.range n) ∧
    (∀ i, i < ((simSteps n h ms).2).length → ∀ k, k < n →
      readT (simSteps n h ms).1
          (((simSteps n h ms).2.getD i ⟨[], []⟩).ptrs.getD k 0) =
        ((simSteps n h ms).2.getD i ⟨[], []⟩).snap.getD k []) := by
  have hle : n ≤ h.length := by omega
  refine ⟨?_, ?_, ?_⟩
  · intro i j hij hj x hxi hxj
    have hi : i < ((simSteps n h ms).2).length := lt_trans hij hj
    rw [(simSteps_spec n ms h hle hms i hi).1, List.mem_range'_1] at hxi
    rw [(simSteps_spec n ms h hle hms j hj).1, List.mem_range'_1] at hxj
    have hmul : n * (i + 1) ≤ n * j := Nat.mul_le_mul_left n (by omega)
    rw [Nat.mul_succ] at hmul
    omega
  · intro i hi x hxi
    rw [(simSteps_spec n ms h hle hms i hi).1, List.mem_range'_1] at hxi
    rw [List.mem_range]
    omega
  · intro i hi k hk
    rw [(simSteps_spec n ms h hle hms i hi).1, range'_getD _ _ _ hk]
    exact (simSteps_spec n ms h hle hms i hi).2 k hk

/-- Counterexample for C5: in a concrete two-step run on one qubit, the
first step's yielded state lives at fresh address 1 — not the working
state's storage (address 0) — and after advancing to the second step it
still holds its yield-time contents, refuting that a previously yielded
state reference shares the mutated backing storage and stops reflecting
its step. -/
theorem step_result_not_shared_counterexample :
    (simSteps 1 [ [ (1 : ℚ), 0 ] ] [ [], [] ]).2.map StepRes.ptrs = [ [1], [2] ] ∧
    ¬ ((((simSteps 1 [ [ (1 : ℚ), 0 ] ] [ [], [] ]).2.getD 0 ⟨[], []⟩).ptrs.getD 0 0)
          ∈ List.range 1 ∨
        readT (simSteps 1 [ [ (1 : ℚ), 0 ] ] [ [], [] ]).1
            (((simSteps 1 [ [ (1 : ℚ), 0 ] ] [ [], [] ]).2.getD 0 ⟨[], []⟩).ptrs.getD 0 0) ≠
          ((simSteps 1 [ [ (1 : ℚ), 0 ] ] [ [], [] ]).2.getD 0 ⟨[], []⟩).snap.getD 0 []) := by
  constructor
  · decide
  · decide

/-- Witness for C5 (amended): in the same two-step run, the first step's
snapshot is durable: the final heap still holds the yield-time contents at
the copy's address. -/
theorem step_results_independent_witness :
    readT (simSteps 1 [ [ (1 : ℚ), 0 ] ] [ [], [] ]).1
        (((simSteps 1 [ [ (1 : ℚ), 0 ] ] [ [], [] ]).2.getD 0 ⟨[], []⟩).ptrs.getD 0 0) =
      ((simSteps 1 [ [ (1 : ℚ), 0 ] ] [ [], [] ]).2.getD 0 ⟨[], []⟩).snap.getD 0 [] :=
  (step_results_independent_and_durable 1 [ [ (1 : ℚ), 0 ] ] [ [], [] ] (by simp)
      (by intro mo hmo pm hpm; rcases List.mem_cons.mp hmo with h | h2
          · subst h; simp at hpm
          · rcases List.mem_cons.mp h2 with h | h3
            · subst h; simp at hpm
            · simp at h3)).2.2
    0 (by rw [simSteps_length_snd]; decide) 0 (by omega)

end MPSSim
